import Mathlib

/-!
Verification of the ONNXim discrete-event co-simulation engine
(`src/Simulator.cc`, `src/Dram.cc`, `src/Model.cc`) against its
natural-language specification.  Each C++ routine relevant to the claims
is shallowly embedded as an executable Lean definition; machine integers
are modelled by `Nat`/`Int` (no overflow is reachable at the modelled
magnitudes), and the containers (`std::vector`, `std::queue`) by lists.
-/

namespace ONNXim

/-! ## Multi-domain clock (`Simulator::set_cycle_mask`, Simulator.cc:202-217)

The simulator keeps a period (picoseconds) and an accumulated time per
clock domain (core, DRAM, interconnect).  `set_cycle_mask` computes the
minimum of the three accumulated times, marks every domain whose time is
`<=` that minimum, and advances each marked domain by its own period. -/

/-- State of the three clock domains: accumulated times and periods,
as held by `Simulator` (`_core_time`, `_dram_time`, `_icnt_time`,
`_core_period`, `_dram_period`, `_icnt_period`). -/
structure ClockState where
  coreTime : Nat
  dramTime : Nat
  icntTime : Nat
  corePeriod : Nat
  dramPeriod : Nat
  icntPeriod : Nat
deriving Repr, DecidableEq

/-- The cycle mask: which domains tick this step (`_cycle_mask` bits
`CORE_MASK`, `DRAM_MASK`, `ICNT_MASK`). -/
structure CycleMask where
  coreTick : Bool
  dramTick : Bool
  icntTick : Bool
deriving Repr, DecidableEq

/-- The `MIN3` macro used by `set_cycle_mask`. -/
def MIN3 (a b c : Nat) : Nat := min a (min b c)

/-- Embedding of `Simulator::set_cycle_mask` (Simulator.cc:202-217): computes
`minimum_time = MIN3(core, dram, icnt)`; each domain with accumulated
time `<= minimum_time` gets its mask bit set and its accumulated time
advanced by its period.  The minimum is computed once, before any
mutation, exactly as in the source. -/
def setCycleMask (s : ClockState) : CycleMask × ClockState :=
  let minimumTime := MIN3 s.coreTime s.dramTime s.icntTime
  let coreTick := decide (s.coreTime ≤ minimumTime)
  let dramTick := decide (s.dramTime ≤ minimumTime)
  let icntTick := decide (s.icntTime ≤ minimumTime)
  (⟨coreTick, dramTick, icntTick⟩,
   { s with
      coreTime := if coreTick then s.coreTime + s.corePeriod else s.coreTime
      dramTime := if dramTick then s.dramTime + s.dramPeriod else s.dramTime
      icntTime := if icntTick then s.icntTime + s.icntPeriod else s.icntTime })

/-! ## Termination test (`Simulator::running`, Simulator.cc:190-200) -/

/-- The boolean observations `Simulator::running` consults: emptiness of
the model arrival heap, each core's `running()`, the interconnect's and
the DRAM's `running()`, and the scheduler's `empty()`. -/
structure SimFlags where
  modelsEmpty : Bool
  coresRunning : List Bool
  icntRunning : Bool
  dramRunning : Bool
  schedulerEmpty : Bool
deriving Repr, DecidableEq

/-- Embedding of `Simulator::running` (Simulator.cc:190-200): starts at `false`,
ORs in `!_models.empty()`, then each core's `running()` in a loop, then
the interconnect, the DRAM, and `!_scheduler->empty()`. -/
def running (f : SimFlags) : Bool :=
  let r := false
  let r := r || !f.modelsEmpty
  let r := f.coresRunning.foldl (fun acc c => acc || c) r
  let r := r || f.icntRunning
  let r := r || f.dramRunning
  let r := r || !f.schedulerEmpty
  r

/-! ## Model arrival handling (`Simulator::handle_model`, Simulator.cc:87-98)

`_models` is a `std::vector` maintained as a min-heap on `request_time`
(`CompareModel`); `handle_model` pops the front while its request time is
`<=` the core-domain time, initializing each popped model and handing it
to the scheduler.  We embed the heap by its essential property: the
element sequence ordered by request time (the heap's front is always the
minimum), so one `pop_heap` step removes the head of the sorted view. -/

/-- A registered model as the arrival loop sees it: identity plus the
request time stored by the `Model` constructor. -/
structure ModelRec where
  id : Nat
  requestTime : Nat
deriving Repr, DecidableEq

/-- Embedding of `Simulator::handle_model` (Simulator.cc:87-98) on the sorted view of
the heap: while the front model's request time is `<= _core_time`, pop
it (it gets initialized and scheduled, in order).  Returns the popped
(launched) models in launch order and the remaining heap. -/
def handleModel (t : Nat) : List ModelRec → List ModelRec × List ModelRec
  | [] => ([], [])
  | m :: rest =>
    if m.requestTime ≤ t then
      let p := handleModel t rest
      (m :: p.1, p.2)
    else ([], m :: rest)

/-! ## Driver loop ordering (`Simulator::cycle`, Simulator.cc:100-183)

One iteration of the `while (running())` loop performs, in source order:
the core-domain block (Simulator.cc:110-132: `handle_model()`, then per
core: finished-tile collection, tile issue, `cycle()`), then the DRAM
tick (Simulator.cc:135-137), then the interconnect block
(Simulator.cc:139-174: per-core forwarding, per-channel transfers, then
`_icnt->cycle()`).  We record an iteration as the list of component
updates it performs, in source order. -/

/-- One observable component update inside a driver-loop iteration. -/
inductive SimEvent where
  /-- `handle_model()` (Simulator.cc:112). -/
  | handleModelArrivals
  /-- `pop_finished_tile` / `finish_tile` for one core (Simulator.cc:115-118). -/
  | coreFinishCollect (coreId : Nat)
  /-- tile issue to one core (Simulator.cc:120-128). -/
  | coreIssue (coreId : Nat)
  /-- `_cores[i]->cycle()` (Simulator.cc:129). -/
  | coreTick (coreId : Nat)
  /-- `_dram->cycle()` (Simulator.cc:136). -/
  | dramTick
  /-- core-to-interconnect and interconnect-to-core forwarding for one
  core (Simulator.cc:140-155). -/
  | icntFromCore (coreId : Nat)
  /-- interconnect-to-DRAM and DRAM-to-interconnect transfers for one
  channel (Simulator.cc:157-171). -/
  | icntFromMem (memId : Nat)
  /-- `_icnt->cycle()` (Simulator.cc:173). -/
  | icntTick
deriving Repr, DecidableEq

/-- The per-core body of the core-domain block (Simulator.cc:114-130):
for each core in index order, finished-tile collection, tile issue, then
the core's `cycle()`. -/
def coreEventsBlock (nCores : Nat) : List SimEvent :=
  (List.range nCores).flatMap
    (fun i => [SimEvent.coreFinishCollect i, SimEvent.coreIssue i,
               SimEvent.coreTick i])

/-- The sequence of component updates one iteration of `Simulator::cycle`
performs under cycle mask `mask`, in source order (Simulator.cc:108-174):
core block, then DRAM tick, then interconnect block. -/
def cycleEvents (mask : CycleMask) (nCores nMem : Nat) : List SimEvent :=
  (if mask.coreTick then
      SimEvent.handleModelArrivals :: coreEventsBlock nCores
    else []) ++
  (if mask.dramTick then [SimEvent.dramTick] else []) ++
  (if mask.icntTick then
      (List.range nCores).map SimEvent.icntFromCore ++
        (List.range nMem).map SimEvent.icntFromMem ++ [SimEvent.icntTick]
    else [])

/-- Event `a` occurs (at some position) strictly before an occurrence of `b`
in the event list `L`. -/
def Precedes (a b : SimEvent) (L : List SimEvent) : Prop :=
  ∃ i j, i < j ∧ L.get? i = some a ∧ L.get? j = some b

/-! ## Simple DRAM model (`SimpleDram`, Dram.cc:6-54)

Per channel, a waiting queue of `(finish cycle, access)` pairs and a
response queue of accesses; queues are lists with the front first.
A `MemoryAccess*` payload is opaque to the DRAM (only its `request`
flag is flipped on push, which we do not model since the claims never
read it back); we represent it by a `Nat` identity. -/

/-- State of `SimpleDram`: `_latency`, the channel count `_n_ch`,
`_cycles`, `_last_finish_cycle`, `_waiting_queue`, `_response_queue`.
`_last_finish_cycle` starts at 0 (value-initialized member; the
constructor Dram.cc:6-13 leaves it). -/
structure SimpleDram where
  latency : Nat
  nCh : Nat
  cycles : Nat
  lastFinishCycle : Nat
  waiting : List (List (Nat × Nat))
  response : List (List Nat)
deriving Repr, DecidableEq

/-- The `SimpleDram` constructor (Dram.cc:6-13): `_cycles = 0`, per
channel queues resized empty. -/
def SimpleDram.init (configLatency configChannels : Nat) : SimpleDram :=
  { latency := configLatency
    nCh := configChannels
    cycles := 0
    lastFinishCycle := 0
    waiting := List.replicate configChannels []
    response := List.replicate configChannels [] }

/-- Embedding of `SimpleDram::push` (Dram.cc:31-38): the entity's finish cycle is
`MAX(_cycles + _latency, _last_finish_cycle)`; `_last_finish_cycle` is
updated to it and the entity is enqueued on channel `cid`. -/
def SimpleDram.push (d : SimpleDram) (cid : Nat) (req : Nat) : SimpleDram :=
  let finish := max (d.cycles + d.latency) d.lastFinishCycle
  { d with
      lastFinishCycle := finish
      waiting := d.waiting.set cid (d.waiting.getD cid [] ++ [(finish, req)]) }

/-- One channel's waiting-queue update in `SimpleDram::cycle`
(Dram.cc:19-23): pop the front entry if its finish cycle has been
reached. -/
def stepWaiting (cycles : Nat) (w : List (Nat × Nat)) : List (Nat × Nat) :=
  match w with
  | [] => []
  | (f, a) :: rest => if f ≤ cycles then rest else (f, a) :: rest

/-- One channel's response-queue update in `SimpleDram::cycle`
(Dram.cc:19-23): receive the front waiting entry if its finish cycle has
been reached. -/
def stepResponse (cycles : Nat) (w : List (Nat × Nat)) (r : List Nat) : List Nat :=
  match w with
  | [] => r
  | (f, a) :: _ => if f ≤ cycles then r ++ [a] else r

/-- Embedding of `SimpleDram::cycle` (Dram.cc:17-27): for each channel, move at most
the front waiting entry (if due) into the response queue; then
`_cycles++`. -/
def SimpleDram.cycleStep (d : SimpleDram) : SimpleDram :=
  { d with
      waiting := d.waiting.map (stepWaiting d.cycles)
      response := List.zipWith (stepResponse d.cycles) d.waiting d.response
      cycles := d.cycles + 1 }

/-- Embedding of `SimpleDram::is_empty` (Dram.cc:40). -/
def SimpleDram.isEmptyCh (d : SimpleDram) (cid : Nat) : Bool :=
  (d.response.getD cid []).isEmpty

/-- Embedding of `SimpleDram::top` (Dram.cc:42-45): front of the response queue
(`none` models the asserted-unreachable empty case). -/
def SimpleDram.topCh (d : SimpleDram) (cid : Nat) : Option Nat :=
  (d.response.getD cid []).head?

/-- Embedding of `SimpleDram::pop` (Dram.cc:47-50): drop the front response (a no-op
on an empty queue, which the source asserts against). -/
def SimpleDram.popCh (d : SimpleDram) (cid : Nat) : SimpleDram :=
  { d with response := d.response.set cid ((d.response.getD cid []).drop 1) }

/-- An interaction with the simple DRAM, as the driver performs them:
`push` on an interconnect transfer, `cycle` on a DRAM tick, `pop` when
a response is forwarded. -/
inductive DramOp where
  | pushOp (cid : Nat) (req : Nat)
  | cycleOp
  | popOp (cid : Nat)
deriving Repr, DecidableEq

/-- Apply one DRAM interaction. -/
def applyDramOp (d : SimpleDram) : DramOp → SimpleDram
  | .pushOp cid req => d.push cid req
  | .cycleOp => d.cycleStep
  | .popOp cid => d.popCh cid

/-- Run a sequence of DRAM interactions. -/
def runDramOps (d : SimpleDram) (ops : List DramOp) : SimpleDram :=
  ops.foldl applyDramOp d

/-- Ghost-instrumented DRAM state for the FIFO claim: alongside the
`SimpleDram` state we log, per channel, the accesses pushed (in push
order) and the responses popped (in delivery order). -/
structure DramHistory where
  dram : SimpleDram
  pushed : List (List Nat)
  popped : List (List Nat)
deriving Repr, DecidableEq

/-- Initial instrumented state over a fresh `SimpleDram`. -/
def DramHistory.init (configLatency configChannels : Nat) : DramHistory :=
  { dram := SimpleDram.init configLatency configChannels
    pushed := List.replicate configChannels []
    popped := List.replicate configChannels [] }

/-- Apply one DRAM interaction, logging pushes and pops per channel. -/
def applyDramOpH (s : DramHistory) : DramOp → DramHistory
  | .pushOp cid req =>
      { dram := s.dram.push cid req
        pushed := s.pushed.set cid (s.pushed.getD cid [] ++ [req])
        popped := s.popped }
  | .cycleOp => { s with dram := s.dram.cycleStep }
  | .popOp cid =>
      { dram := s.dram.popCh cid
        pushed := s.pushed
        popped :=
          match (s.dram.response.getD cid []).head? with
          | some a => s.popped.set cid (s.popped.getD cid [] ++ [a])
          | none => s.popped }

/-- Run a sequence of DRAM interactions with logging. -/
def runDramOpsH (s : DramHistory) (ops : List DramOp) : DramHistory :=
  ops.foldl applyDramOpH s

/-- Proof-support predicate for the latency claim: every waiting entry
carrying access `p` has finish cycle at least `bound`, and once `p` is
in a response queue the cycle counter has passed `bound`. -/
def DelayInv (p bound : Nat) (d : SimpleDram) : Prop :=
  (∀ ch : Nat, ∀ e ∈ d.waiting.getD ch [], e.2 = p → bound ≤ e.1) ∧
  ((∃ ch : Nat, p ∈ d.response.getD ch []) → bound + 1 ≤ d.cycles)

/-- Proof-support predicate for the FIFO claim: all per-channel vectors
keep length `nCh`; per channel, popped log ++ response queue ++ waiting
accesses equals the push log (so delivery order is push order); waiting
finish cycles are non-decreasing and bounded by `_last_finish_cycle`. -/
def FifoInv (nCh : Nat) (s : DramHistory) : Prop :=
  s.dram.waiting.length = nCh ∧ s.dram.response.length = nCh ∧
  s.pushed.length = nCh ∧ s.popped.length = nCh ∧
  ∀ ch : Nat,
    (s.popped.getD ch [] ++ s.dram.response.getD ch [] ++
        (s.dram.waiting.getD ch []).map Prod.snd = s.pushed.getD ch []) ∧
    List.Chain' (· ≤ ·) ((s.dram.waiting.getD ch []).map Prod.fst) ∧
    (∀ e ∈ s.dram.waiting.getD ch [], e.1 ≤ s.dram.lastFinishCycle)

/-! ## Per-model configuration (`Model::Model`, Model.cc:6-20) -/

/-- The request-time conversion of the `Model` constructor
(Model.cc:12-15): when the per-model config contains `request_time` (a
floating-point number of seconds) the model stores
`uint64_t(double(value) * 1000 * 1000 * 1000)`, else 0.  The double
arithmetic is modelled exactly over `ℚ`; the `uint64_t` conversion
truncates, modelled by `Int.floor` composed with `Int.toNat` (they agree
on the nonnegative times used). -/
def requestTimeOfConfig (requestTimeKey : Option ℚ) : Nat :=
  match requestTimeKey with
  | some t => (⌊t * 1000 * 1000 * 1000⌋).toNat
  | none => 0

/-- Modelled from the spec for comparison — the documented conversion:
`request_time` is "(float seconds, converted to picoseconds)", i.e.
multiplied by `10^12` (as the source comment "Pico seconds" also
states). -/
def requestTimeDocumented (t : ℚ) : Nat := (⌊t * 1000000000000⌋).toNat

/-! ## Input-shape canonicalization (`Model::initialize_model`, Model.cc:66-71) -/

/-- The NCHW-to-NHWC conversion applied to one parsed model input
(Model.cc:66-71): when the model has exactly one input
(`input.size() == 1`) and the parsed shape is 4-D with
`input_dim.at(2) == input_dim.at(3)`, the channel entry at position 1 is
erased and appended at the back; otherwise the shape is kept. -/
def convertInputDims (numInputs : Nat) (dims : List Nat) : List Nat :=
  if numInputs = 1 ∧ dims.length = 4 ∧ dims.getD 2 0 = dims.getD 3 0 then
    dims.eraseIdx 1 ++ [dims.getD 1 0]
  else dims

/-! ## Graph construction and `nr_atten` truncation
(`Model::initialize_model`, Model.cc:88-99) -/

/-- One ONNX node as the graph-construction loop sees it: its operator
type string, and whether `OperationFactory::create_operation` produces a
non-null operation for it (unknown op types yield null and are
skipped). -/
structure NodeProto where
  opType : String
  known : Bool
deriving Repr, DecidableEq

/-- The node-construction loop of `Model::initialize_model`
(Model.cc:88-99): nodes are created in graph order (null operations
skipped); on each created SkipLayerNormalization node, if
`nr_atten != -1` the counter `nr_skip` is pre-incremented and compared
with `2 * nr_atten`; on reaching it the node's outputs are cleared
(recorded by the `Bool` flag) and the loop breaks.  Arguments: the
`nr_atten` config value, the current `nr_skip` counter (0 at entry,
Model.cc), the remaining nodes. -/
def buildOps (nrAtten : Int) : Int → List NodeProto → List (NodeProto × Bool)
  | _, [] => []
  | nrSkip, node :: rest =>
    if node.known then
      if node.opType = "SkipLayerNormalization" then
        if nrAtten = -1 then (node, false) :: buildOps nrAtten nrSkip rest
        else if nrSkip + 1 ≥ nrAtten * 2 then [(node, true)]
        else (node, false) :: buildOps nrAtten (nrSkip + 1) rest
      else (node, false) :: buildOps nrAtten nrSkip rest
    else buildOps nrAtten nrSkip rest

/-- Number of SkipLayerNormalization operations among created nodes. -/
def slnCount (l : List (NodeProto × Bool)) : Nat :=
  l.countP (fun e => e.1.opType == "SkipLayerNormalization")

/-- Number of known (factory-supported) SkipLayerNormalization nodes in
an input node list. -/
def slnNodes (l : List NodeProto) : Nat :=
  l.countP (fun x => x.opType == "SkipLayerNormalization" && x.known)

/-- Number of created nodes whose outputs were cleared. -/
def clearedCount (l : List (NodeProto × Bool)) : Nat :=
  l.countP (fun e => e.2)

/-- Only the last created node may have its outputs cleared. -/
def ClearedOnlyLast : List (NodeProto × Bool) → Prop
  | [] => True
  | [_] => True
  | e :: rest => e.2 = false ∧ ClearedOnlyLast rest

/-! ## Ready-queue maintenance (`Model`, Model.cc:101-160) -/

/-- Embedding of `Model::check_exist_in_exeutable` (Model.cc:153-160): linear scan of
the ready-queue for an operation id (the source function's spelling is
kept). -/
def check_exist_in_exeutable (readyIds : List Nat) (opId : Nat) : Bool :=
  match readyIds with
  | [] => false
  | x :: rest => if opId = x then true else check_exist_in_exeutable rest opId

/-- The ready-queue effect of `Model::set_layer_finish`
(Model.cc:114-123) on the finished operation's child ids: each child
that is executable (oracle `exec` stands for `check_executable` at call
time) and not found by the linear scan is appended. -/
def setLayerFinishReady (exec : Nat → Bool) (readyIds : List Nat)
    (children : List Nat) : List Nat :=
  children.foldl
    (fun r c => if exec c && !check_exist_in_exeutable r c then r ++ [c] else r)
    readyIds

/-- The ready-queue seeding of `Model::initialize_model`
(Model.cc:101-106): every executable operation of the operation map (one
entry per id) is appended. -/
def seedReady (opMap : List (Nat × Bool)) : List Nat :=
  (opMap.filter (fun e => e.2)).map Prod.fst

/-- A ready-queue interaction after seeding: a `set_layer_finish` call
(with the executability oracle at that instant and the finished
operation's child ids), or a `get_executable_tile` front pop
(Model.cc:129-136). -/
inductive ReadyOp where
  | finishOp (exec : Nat → Bool) (children : List Nat)
  | getTileOp

/-- Apply one ready-queue interaction. -/
def applyReadyOp (readyIds : List Nat) : ReadyOp → List Nat
  | .finishOp exec children => setLayerFinishReady exec readyIds children
  | .getTileOp => readyIds.drop 1

/-- Run a sequence of ready-queue interactions. -/
def runReadyOps (readyIds : List Nat) (ops : List ReadyOp) : List Nat :=
  ops.foldl applyReadyOp readyIds

end ONNXim

namespace ONNXim

/-! ### Clock theorems -/

/-- Claim C1. On every simulator step, `set_cycle_mask` computes the minimum
of the three accumulated domain times; exactly the domains whose
accumulated time equals that minimum are marked to tick this step, each
such domain advances by its own period (the others stay put), and at
least one domain ticks. -/
theorem set_cycle_mask_min_tick (s : ClockState) :
    let m := MIN3 s.coreTime s.dramTime s.icntTime
    let r := setCycleMask s
    ((r.1.coreTick = true ↔ s.coreTime = m) ∧
     (r.1.dramTick = true ↔ s.dramTime = m) ∧
     (r.1.icntTick = true ↔ s.icntTime = m)) ∧
    (r.2.coreTime = (if r.1.coreTick then s.coreTime + s.corePeriod else s.coreTime) ∧
     r.2.dramTime = (if r.1.dramTick then s.dramTime + s.dramPeriod else s.dramTime) ∧
     r.2.icntTime = (if r.1.icntTick then s.icntTime + s.icntPeriod else s.icntTime)) ∧
    (r.1.coreTick = true ∨ r.1.dramTick = true ∨ r.1.icntTick = true) := by
  refine ⟨⟨?_, ?_, ?_⟩, ⟨rfl, rfl, rfl⟩, ?_⟩ <;>
    simp only [setCycleMask, MIN3, decide_eq_true_eq] <;> omega

/-! ### Termination-test theorems -/

lemma foldl_or_eq (l : List Bool) (r : Bool) :
    l.foldl (fun acc c => acc || c) r = (r || l.any id) := by
  induction l generalizing r with
  | nil => simp
  | cons x xs ih => simp [List.foldl_cons, ih, Bool.or_assoc]

/-- Claim C4. The main loop `while (running())` terminates exactly when all
of: the model arrival heap is empty, every core reports not running, the
interconnect reports not running, the DRAM reports not running, and the
scheduler is empty; while any of these fails, `running()` is `true` and
the loop continues. -/
theorem running_false_iff (f : SimFlags) :
    running f = false ↔
      (f.modelsEmpty = true ∧ (∀ c ∈ f.coresRunning, c = false) ∧
       f.icntRunning = false ∧ f.dramRunning = false ∧
       f.schedulerEmpty = true) := by
  simp only [running, foldl_or_eq, Bool.false_or, Bool.or_eq_false_iff,
    List.any_eq_false, id, Bool.not_eq_false', Bool.not_eq_true]
  tauto

/-! ### Model arrival theorems -/

/-- Claim C3. On a core tick, `handle_model` pops exactly those models whose
request time is `<=` the current core-domain time `t` (in heap order),
leaving exactly the others; consequently every launched (initialized and
scheduled) model has request time `<= t`, i.e. a model with request time
`r` is initialized at core-domain time `>= r`.  The hypothesis states the
min-heap's invariant on its sorted view. -/
theorem handle_model_pops_due (t : Nat) (models : List ModelRec)
    (hsorted : models.Pairwise (fun a b => a.requestTime ≤ b.requestTime)) :
    (handleModel t models).1 = models.filter (fun m => decide (m.requestTime ≤ t)) ∧
    (handleModel t models).2 = models.filter (fun m => !decide (m.requestTime ≤ t)) ∧
    (∀ m ∈ (handleModel t models).1, m.requestTime ≤ t) ∧
    (∀ m ∈ (handleModel t models).2, t < m.requestTime) := by
  induction models with
  | nil => simp [handleModel]
  | cons m rest ih =>
    rcases List.pairwise_cons.mp hsorted with ⟨hhead, htail⟩
    rcases ih htail with ⟨ih1, ih2, ih3, ih4⟩
    by_cases h : m.requestTime ≤ t
    · have hfilter1 : (m :: rest).filter (fun x => decide (x.requestTime ≤ t)) =
          m :: rest.filter (fun x => decide (x.requestTime ≤ t)) :=
        List.filter_cons_of_pos (by simpa using h)
      have hfilter2 : (m :: rest).filter (fun x => !decide (x.requestTime ≤ t)) =
          rest.filter (fun x => !decide (x.requestTime ≤ t)) :=
        List.filter_cons_of_neg (by simpa using h)
      have hfst : (handleModel t (m :: rest)).1 = m :: (handleModel t rest).1 := by
        simp [handleModel, if_pos h]
      have hsnd : (handleModel t (m :: rest)).2 = (handleModel t rest).2 := by
        simp [handleModel, if_pos h]
      refine ⟨?_, ?_, ?_, ?_⟩
      · rw [hfst, hfilter1, ih1]
      · rw [hsnd, hfilter2, ih2]
      · intro x hx
        rw [hfst] at hx
        rcases List.mem_cons.mp hx with hx | hx
        · exact hx ▸ h
        · exact ih3 x hx
      · intro x hx
        rw [hsnd] at hx
        exact ih4 x hx
    · have hrest : ∀ x ∈ rest, ¬ x.requestTime ≤ t := fun x hx hxle =>
        h (le_trans (hhead x hx) hxle)
      have hfst : (handleModel t (m :: rest)).1 = [] := by
        simp [handleModel, if_neg h]
      have hsnd : (handleModel t (m :: rest)).2 = m :: rest := by
        simp [handleModel, if_neg h]
      refine ⟨?_, ?_, ?_, ?_⟩
      · rw [hfst, List.filter_cons_of_neg (by simpa using h)]
        exact (List.filter_eq_nil_iff.mpr (fun x hx => by simpa using hrest x hx)).symm
      · rw [hsnd, List.filter_cons_of_pos (by simpa using h)]
        exact congrArg (m :: ·)
          (List.filter_eq_self.mpr (fun x hx => by simpa using hrest x hx)).symm
      · intro x hx
        rw [hfst] at hx
        simp at hx
      · intro x hx
        rw [hsnd] at hx
        rcases List.mem_cons.mp hx with hx | hx
        · subst hx; omega
        · exact lt_of_not_le (hrest x hx)

/-- Witness for `handle_model_pops_due` at a concrete sorted heap view. -/
theorem handle_model_pops_due_witness :
    (handleModel 5 [⟨0, 3⟩, ⟨1, 5⟩, ⟨2, 9⟩]).1 =
      [⟨0, 3⟩, ⟨1, 5⟩] ∧ (handleModel 5 [⟨0, 3⟩, ⟨1, 5⟩, ⟨2, 9⟩]).2 = [⟨2, 9⟩] := by
  have h := handle_model_pops_due 5 [⟨0, 3⟩, ⟨1, 5⟩, ⟨2, 9⟩] (by decide)
  exact ⟨by rw [h.1]; decide, by rw [h.2.1]; decide⟩

/-! ### Driver-loop ordering theorems -/

lemma precedes_of_mem_append {a b : SimEvent} {l1 l2 : List SimEvent}
    (ha : a ∈ l1) (hb : b ∈ l2) : Precedes a b (l1 ++ l2) := by
  rcases List.get_of_mem ha with ⟨⟨i, hi⟩, rfl⟩
  rcases List.get_of_mem hb with ⟨⟨j, hj⟩, rfl⟩
  refine ⟨i, l1.length + j, by omega, ?_, ?_⟩
  · rw [List.get?_append hi]
    exact List.get?_eq_get hi
  · rw [List.get?_append_right (by omega)]
    have harith : l1.length + j - l1.length = j := by omega
    rw [harith]
    exact List.get?_eq_get hj

lemma precedes_append_left {a b : SimEvent} {l1 : List SimEvent}
    (l2 : List SimEvent) (h : Precedes a b l1) : Precedes a b (l1 ++ l2) := by
  rcases h with ⟨i, j, hij, hi, hj⟩
  have hibound : i < l1.length := by
    rcases List.get?_eq_some.mp hi with ⟨hb, _⟩
    exact hb
  have hjbound : j < l1.length := by
    rcases List.get?_eq_some.mp hj with ⟨hb, _⟩
    exact hb
  exact ⟨i, j, hij, by rw [List.get?_append hibound]; exact hi,
    by rw [List.get?_append hjbound]; exact hj⟩

lemma precedes_append_right {a b : SimEvent} (l1 : List SimEvent)
    {l2 : List SimEvent} (h : Precedes a b l2) : Precedes a b (l1 ++ l2) := by
  rcases h with ⟨i, j, hij, hi, hj⟩
  refine ⟨l1.length + i, l1.length + j, by omega, ?_, ?_⟩
  · rw [List.get?_append_right (by omega)]
    have harith : l1.length + i - l1.length = i := by omega
    rw [harith]; exact hi
  · rw [List.get?_append_right (by omega)]
    have harith : l1.length + j - l1.length = j := by omega
    rw [harith]; exact hj

lemma precedes_cons {a b : SimEvent} (c : SimEvent) {l : List SimEvent}
    (h : Precedes a b l) : Precedes a b (c :: l) := by
  rcases h with ⟨i, j, hij, hi, hj⟩
  exact ⟨i + 1, j + 1, by omega, by simpa using hi, by simpa using hj⟩

lemma precedes_cons_self {a b : SimEvent} {l : List SimEvent}
    (h : b ∈ l) : Precedes a b (a :: l) := by
  rcases List.get_of_mem h with ⟨⟨j, hjl⟩, rfl⟩
  exact ⟨0, j + 1, by omega, rfl, by simp [List.get?_eq_get hjl]⟩

lemma precedes_in_core_events (n i : Nat) (hi : i < n) :
    Precedes (SimEvent.coreFinishCollect i) (SimEvent.coreIssue i)
        (coreEventsBlock n) ∧
      Precedes (SimEvent.coreIssue i) (SimEvent.coreTick i)
        (coreEventsBlock n) := by
  induction n with
  | zero => omega
  | succ m ih =>
    have hsplit : coreEventsBlock (m + 1) = coreEventsBlock m ++
        [SimEvent.coreFinishCollect m, SimEvent.coreIssue m,
         SimEvent.coreTick m] := by
      unfold coreEventsBlock
      rw [List.range_succ]
      simp
    rcases Nat.lt_succ_iff_lt_or_eq.mp hi with h | h
    · rcases ih h with ⟨h1, h2⟩
      exact ⟨hsplit ▸ precedes_append_left _ h1,
             hsplit ▸ precedes_append_left _ h2⟩
    · subst h
      refine ⟨?_, ?_⟩
      · rw [hsplit]
        exact precedes_append_right _ ⟨0, 1, by omega, rfl, rfl⟩
      · rw [hsplit]
        exact precedes_append_right _ ⟨1, 2, by omega, rfl, rfl⟩

/-- Claim C2, counterexample. In one driver-loop iteration where all three
domains tick (one core, one channel), the interconnect tick does *not*
precede the DRAM tick: the source (Simulator.cc:134-174) runs
`_dram->cycle()` before the interconnect block, so the claimed order
"... interconnect tick, then the DRAM tick" fails. -/
theorem cycle_events_icnt_tick_not_before_dram_tick :
    ¬ Precedes SimEvent.icntTick SimEvent.dramTick
        (cycleEvents ⟨true, true, true⟩ 1 1) := by
  rintro ⟨i, j, hij, hi, hj⟩
  have hL : cycleEvents ⟨true, true, true⟩ 1 1 =
      [SimEvent.handleModelArrivals, SimEvent.coreFinishCollect 0,
       SimEvent.coreIssue 0, SimEvent.coreTick 0, SimEvent.dramTick,
       SimEvent.icntFromCore 0, SimEvent.icntFromMem 0, SimEvent.icntTick] := by
    rfl
  rw [hL] at hi hj
  have hjbound : j < 8 := by
    rcases List.get?_eq_some.mp hj with ⟨hb, _⟩
    simpa using hb
  interval_cases j <;>
    first
      | exact absurd hj (by decide)
      | (interval_cases i <;> exact absurd hi (by decide))

/-- Claim C2, amended. Within a single driver-loop iteration, updates
occur in the fixed order: model arrivals, per-core finished-tile
collection, tile issue, core tick, then the DRAM tick, then interconnect
forwarding (core side then channel side), then the interconnect tick —
each phase present only when its domain's mask bit is set. -/
theorem cycle_order (mask : CycleMask) (nCores nMem : Nat) :
    (∀ i, i < nCores → mask.coreTick = true →
      Precedes SimEvent.handleModelArrivals (SimEvent.coreFinishCollect i)
          (cycleEvents mask nCores nMem) ∧
        Precedes (SimEvent.coreFinishCollect i) (SimEvent.coreIssue i)
          (cycleEvents mask nCores nMem) ∧
        Precedes (SimEvent.coreIssue i) (SimEvent.coreTick i)
          (cycleEvents mask nCores nMem)) ∧
    (∀ i, i < nCores → mask.coreTick = true → mask.dramTick = true →
      Precedes (SimEvent.coreTick i) SimEvent.dramTick
        (cycleEvents mask nCores nMem)) ∧
    (∀ i, i < nCores → mask.dramTick = true → mask.icntTick = true →
      Precedes SimEvent.dramTick (SimEvent.icntFromCore i)
        (cycleEvents mask nCores nMem)) ∧
    (∀ j, j < nMem → mask.dramTick = true → mask.icntTick = true →
      Precedes SimEvent.dramTick (SimEvent.icntFromMem j)
        (cycleEvents mask nCores nMem)) ∧
    (∀ i, i < nCores → mask.icntTick = true →
      Precedes (SimEvent.icntFromCore i) SimEvent.icntTick
        (cycleEvents mask nCores nMem)) ∧
    (∀ j, j < nMem → mask.icntTick = true →
      Precedes (SimEvent.icntFromMem j) SimEvent.icntTick
        (cycleEvents mask nCores nMem)) ∧
    (∀ i j, i < nCores → j < nMem → mask.icntTick = true →
      Precedes (SimEvent.icntFromCore i) (SimEvent.icntFromMem j)
        (cycleEvents mask nCores nMem)) ∧
    (∀ i j, i < nCores → j < nCores → mask.coreTick = true →
      mask.icntTick = true →
      Precedes (SimEvent.coreTick i) (SimEvent.icntFromCore j)
        (cycleEvents mask nCores nMem)) ∧
    (∀ i j, i < nCores → j < nMem → mask.coreTick = true →
      mask.icntTick = true →
      Precedes (SimEvent.coreTick i) (SimEvent.icntFromMem j)
        (cycleEvents mask nCores nMem)) ∧
    (∀ i, i < nCores → mask.coreTick = true → mask.icntTick = true →
      Precedes (SimEvent.coreTick i) SimEvent.icntTick
        (cycleEvents mask nCores nMem)) := by
  refine ⟨?_, ?_, ?_, ?_, ?_, ?_, ?_, ?_, ?_, ?_⟩
  · intro i hi hcore
    have hmem : SimEvent.coreFinishCollect i ∈ coreEventsBlock nCores :=
      List.mem_flatMap.mpr ⟨i, List.mem_range.mpr hi, by simp⟩
    have hblock := precedes_in_core_events nCores i hi
    refine ⟨?_, ?_, ?_⟩
    · unfold cycleEvents
      rw [hcore, if_pos rfl]
      refine precedes_append_left _ (precedes_append_left _ ?_)
      exact precedes_cons_self hmem
    · unfold cycleEvents
      rw [hcore, if_pos rfl]
      refine precedes_append_left _ (precedes_append_left _ ?_)
      exact precedes_cons _ hblock.1
    · unfold cycleEvents
      rw [hcore, if_pos rfl]
      refine precedes_append_left _ (precedes_append_left _ ?_)
      exact precedes_cons _ hblock.2
  · intro i hi hcore hdram
    unfold cycleEvents
    rw [hcore, hdram, if_pos rfl, if_pos rfl, List.append_assoc]
    refine precedes_of_mem_append ?_ ?_
    · exact List.mem_cons_of_mem _
        (List.mem_flatMap.mpr ⟨i, List.mem_range.mpr hi, by simp⟩)
    · exact List.mem_append_left _ (by simp)
  · intro i hi hdram hicnt
    unfold cycleEvents
    rw [hdram, hicnt, if_pos rfl, if_pos rfl]
    refine precedes_of_mem_append ?_ ?_
    · exact List.mem_append_right _ (by simp)
    · exact List.mem_append_left _ (List.mem_append_left _
        (List.mem_map.mpr ⟨i, List.mem_range.mpr hi, rfl⟩))
  · intro j hj hdram hicnt
    unfold cycleEvents
    rw [hdram, hicnt, if_pos rfl, if_pos rfl]
    refine precedes_of_mem_append ?_ ?_
    · exact List.mem_append_right _ (by simp)
    · exact List.mem_append_left _ (List.mem_append_right _
        (List.mem_map.mpr ⟨j, List.mem_range.mpr hj, rfl⟩))
  · intro i hi hicnt
    unfold cycleEvents
    rw [hicnt, if_pos rfl]
    refine precedes_append_right _ ?_
    refine precedes_of_mem_append ?_ (by simp)
    exact List.mem_append_left _
      (List.mem_map.mpr ⟨i, List.mem_range.mpr hi, rfl⟩)
  · intro j hj hicnt
    unfold cycleEvents
    rw [hicnt, if_pos rfl]
    refine precedes_append_right _ ?_
    refine precedes_of_mem_append ?_ (by simp)
    exact List.mem_append_right _
      (List.mem_map.mpr ⟨j, List.mem_range.mpr hj, rfl⟩)
  · intro i j hi hj hicnt
    unfold cycleEvents
    rw [hicnt, if_pos rfl]
    refine precedes_append_right _ (precedes_append_left _ ?_)
    refine precedes_of_mem_append ?_ ?_
    · exact List.mem_map.mpr ⟨i, List.mem_range.mpr hi, rfl⟩
    · exact List.mem_map.mpr ⟨j, List.mem_range.mpr hj, rfl⟩
  · intro i j hi hj hcore hicnt
    unfold cycleEvents
    rw [hcore, hicnt, if_pos rfl, if_pos rfl]
    refine precedes_of_mem_append ?_ ?_
    · exact List.mem_append_left _ (List.mem_cons_of_mem _
        (List.mem_flatMap.mpr ⟨i, List.mem_range.mpr hi, by simp⟩))
    · exact List.mem_append_left _ (List.mem_append_left _
        (List.mem_map.mpr ⟨j, List.mem_range.mpr hj, rfl⟩))
  · intro i j hi hj hcore hicnt
    unfold cycleEvents
    rw [hcore, hicnt, if_pos rfl, if_pos rfl]
    refine precedes_of_mem_append ?_ ?_
    · exact List.mem_append_left _ (List.mem_cons_of_mem _
        (List.mem_flatMap.mpr ⟨i, List.mem_range.mpr hi, by simp⟩))
    · exact List.mem_append_left _ (List.mem_append_right _
        (List.mem_map.mpr ⟨j, List.mem_range.mpr hj, rfl⟩))
  · intro i hi hcore hicnt
    unfold cycleEvents
    rw [hcore, hicnt, if_pos rfl, if_pos rfl]
    refine precedes_of_mem_append ?_ ?_
    · exact List.mem_append_left _ (List.mem_cons_of_mem _
        (List.mem_flatMap.mpr ⟨i, List.mem_range.mpr hi, by simp⟩))
    · exact List.mem_append_right _ (by simp)

/-- Witness for `cycle_order` on a full mask with one core and one
memory channel, and on a mask where the DRAM domain does not tick. -/
theorem cycle_order_witness :
    Precedes (SimEvent.coreTick 0) SimEvent.dramTick
        (cycleEvents ⟨true, true, true⟩ 1 1) ∧
      Precedes SimEvent.dramTick (SimEvent.icntFromCore 0)
        (cycleEvents ⟨true, true, true⟩ 1 1) ∧
      Precedes (SimEvent.coreFinishCollect 0) (SimEvent.coreIssue 0)
        (cycleEvents ⟨true, true, true⟩ 1 1) ∧
      Precedes (SimEvent.icntFromMem 0) SimEvent.icntTick
        (cycleEvents ⟨true, true, true⟩ 1 1) ∧
      Precedes (SimEvent.icntFromCore 0) (SimEvent.icntFromMem 0)
        (cycleEvents ⟨true, true, true⟩ 1 1) ∧
      Precedes (SimEvent.coreTick 0) (SimEvent.icntFromCore 0)
        (cycleEvents ⟨true, false, true⟩ 1 1) ∧
      Precedes (SimEvent.coreTick 0) (SimEvent.icntFromMem 0)
        (cycleEvents ⟨true, false, true⟩ 1 1) ∧
      Precedes (SimEvent.coreTick 0) SimEvent.icntTick
        (cycleEvents ⟨true, false, true⟩ 1 1) :=
  ⟨(cycle_order ⟨true, true, true⟩ 1 1).2.1 0 (by decide) rfl rfl,
   (cycle_order ⟨true, true, true⟩ 1 1).2.2.1 0 (by decide) rfl rfl,
   ((cycle_order ⟨true, true, true⟩ 1 1).1 0 (by decide) rfl).2.1,
   (cycle_order ⟨true, true, true⟩ 1 1).2.2.2.2.2.1 0 (by decide) rfl,
   (cycle_order ⟨true, true, true⟩ 1 1).2.2.2.2.2.2.1 0 0
     (by decide) (by decide) rfl,
   (cycle_order ⟨true, false, true⟩ 1 1).2.2.2.2.2.2.2.1 0 0
     (by decide) (by decide) rfl rfl,
   (cycle_order ⟨true, false, true⟩ 1 1).2.2.2.2.2.2.2.2.1 0 0
     (by decide) (by decide) rfl rfl,
   (cycle_order ⟨true, false, true⟩ 1 1).2.2.2.2.2.2.2.2.2 0
     (by decide) rfl rfl⟩

/-! ### Simple-DRAM channel-access lemmas -/

lemma getD_set_self_cases {α : Type} (l : List (List α)) (n : Nat) (a : List α) :
    (l.set n a).getD n [] = a ∨
      ((l.set n a).getD n [] = [] ∧ l.getD n [] = []) := by
  rw [List.getD_eq_getElem?_getD, List.getElem?_set_self']
  cases hl : l[n]? with
  | none =>
    right
    refine ⟨rfl, ?_⟩
    rw [List.getD_eq_getElem?_getD, hl]
    rfl
  | some w => left; rfl

lemma getD_set_self_of_lt {α : Type} {l : List (List α)} {n : Nat} (a : List α)
    (hn : n < l.length) : (l.set n a).getD n [] = a := by
  rw [List.getD_eq_getElem?_getD, List.getElem?_set_self',
    List.getElem?_eq_getElem hn]
  rfl

lemma getD_set_ne {α : Type} (l : List (List α)) {n m : Nat} (a : List α)
    (h : n ≠ m) : (l.set n a).getD m [] = l.getD m [] := by
  rw [List.getD_eq_getElem?_getD, List.getD_eq_getElem?_getD,
    List.getElem?_set_ne h]

lemma getD_map_nilfix {α β : Type} {f : List α → List β} (hf : f [] = [])
    (l : List (List α)) (n : Nat) : (l.map f).getD n [] = f (l.getD n []) := by
  rw [List.getD_eq_getElem?_getD, List.getD_eq_getElem?_getD, List.getElem?_map]
  cases l[n]? with
  | none => simpa using hf.symm
  | some w => rfl

lemma getD_zipWith_nilfix {α β γ : Type} {g : List α → List β → List γ}
    (hg : g [] [] = []) {w : List (List α)} {r : List (List β)}
    (hlen : w.length = r.length) (n : Nat) :
    (List.zipWith g w r).getD n [] = g (w.getD n []) (r.getD n []) := by
  rcases Nat.lt_or_ge n w.length with hn | hn
  · have hr : n < r.length := hlen ▸ hn
    rw [List.getD_eq_getElem?_getD, List.getD_eq_getElem?_getD,
      List.getD_eq_getElem?_getD, List.getElem?_zipWith',
      List.getElem?_eq_getElem hn, List.getElem?_eq_getElem hr]
    rfl
  · have hr : r.length ≤ n := hlen ▸ hn
    rw [List.getD_eq_getElem?_getD, List.getD_eq_getElem?_getD,
      List.getD_eq_getElem?_getD, List.getElem?_eq_none hn,
      List.getElem?_eq_none hr]
    have hz : (List.zipWith g w r)[n]? = none := by
      apply List.getElem?_eq_none
      rw [List.length_zipWith]
      omega
    rw [hz]
    simpa using hg.symm

lemma getD_replicate_nil {α : Type} (k n : Nat) :
    (List.replicate k ([] : List α)).getD n [] = [] := by
  induction k generalizing n with
  | zero => cases n <;> rfl
  | succ m ih =>
    cases n with
    | zero => rfl
    | succ n2 => exact ih n2

lemma mem_stepWaiting {cy : Nat} {w : List (Nat × Nat)} {e : Nat × Nat}
    (he : e ∈ stepWaiting cy w) : e ∈ w := by
  cases w with
  | nil => simp [stepWaiting] at he
  | cons hd rest =>
    rcases hd with ⟨f, a⟩
    by_cases hf : f ≤ cy
    · rw [stepWaiting, if_pos hf] at he
      exact List.mem_cons_of_mem _ he
    · rwa [stepWaiting, if_neg hf] at he

/-! ### Simple-DRAM latency theorems -/

lemma delayInv_push {p bound : Nat} {d : SimpleDram} (cid q : Nat) (hq : q ≠ p)
    (h : DelayInv p bound d) : DelayInv p bound (d.push cid q) := by
  obtain ⟨h1, h2⟩ := h
  refine ⟨?_, h2⟩
  intro ch e he hep
  simp only [SimpleDram.push] at he
  by_cases hc : cid = ch
  · subst hc
    rcases getD_set_self_cases d.waiting cid
        (d.waiting.getD cid [] ++ [(max (d.cycles + d.latency) d.lastFinishCycle, q)])
      with hcase | hcase
    · rw [hcase] at he
      rcases List.mem_append.mp he with hmem | hmem
      · exact h1 cid e hmem hep
      · rcases List.mem_singleton.mp hmem with rfl
        exact absurd hep hq
    · rw [hcase.1] at he
      simp at he
  · rw [getD_set_ne _ _ hc] at he
    exact h1 ch e he hep

lemma delayInv_cycle {p bound : Nat} {d : SimpleDram}
    (hlen : d.waiting.length = d.response.length)
    (h : DelayInv p bound d) : DelayInv p bound d.cycleStep := by
  obtain ⟨h1, h2⟩ := h
  constructor
  · intro ch e he hep
    simp only [SimpleDram.cycleStep] at he
    rw [getD_map_nilfix rfl] at he
    exact h1 ch e (mem_stepWaiting he) hep
  · rintro ⟨ch, hp⟩
    simp only [SimpleDram.cycleStep] at hp ⊢
    rw [getD_zipWith_nilfix rfl hlen] at hp
    rcases hw : d.waiting.getD ch [] with _ | ⟨⟨f, a⟩, rest⟩
    · rw [hw] at hp
      simp only [stepResponse] at hp
      have := h2 ⟨ch, hp⟩
      omega
    · rw [hw] at hp
      by_cases hf : f ≤ d.cycles
      · rw [stepResponse, if_pos hf] at hp
        rcases List.mem_append.mp hp with hmem | hmem
        · have := h2 ⟨ch, hmem⟩
          omega
        · rcases List.mem_singleton.mp hmem with rfl
          have hb := h1 ch (f, p) (hw ▸ List.mem_cons_self _ _) rfl
          omega
      · rw [stepResponse, if_neg hf] at hp
        have := h2 ⟨ch, hp⟩
        omega

lemma delayInv_pop {p bound : Nat} {d : SimpleDram} (cid : Nat)
    (h : DelayInv p bound d) : DelayInv p bound (d.popCh cid) := by
  obtain ⟨h1, h2⟩ := h
  refine ⟨h1, ?_⟩
  rintro ⟨ch, hp⟩
  simp only [SimpleDram.popCh] at hp
  by_cases hc : cid = ch
  · subst hc
    rcases getD_set_self_cases d.response cid ((d.response.getD cid []).drop 1)
      with hcase | hcase
    · rw [hcase] at hp
      exact h2 ⟨cid, List.drop_subset _ _ hp⟩
    · rw [hcase.1] at hp
      simp at hp
  · rw [getD_set_ne _ _ hc] at hp
    exact h2 ⟨ch, hp⟩

lemma lengths_eq_applyDramOp {d : SimpleDram} (op : DramOp)
    (h : d.waiting.length = d.response.length) :
    (applyDramOp d op).waiting.length = (applyDramOp d op).response.length := by
  cases op with
  | pushOp cid req => simpa [applyDramOp, SimpleDram.push] using h
  | cycleOp =>
    simp only [applyDramOp, SimpleDram.cycleStep, List.length_map,
      List.length_zipWith]
    omega
  | popOp cid => simpa [applyDramOp, SimpleDram.popCh] using h

lemma delayInv_run (p bound : Nat) (ops : List DramOp)
    (hfree : ∀ c q, DramOp.pushOp c q ∈ ops → q ≠ p) :
    ∀ d : SimpleDram, DelayInv p bound d →
      d.waiting.length = d.response.length →
      DelayInv p bound (runDramOps d ops) := by
  induction ops with
  | nil => intro d h _; exact h
  | cons op rest ih =>
    intro d h hlen
    have hstep : DelayInv p bound (applyDramOp d op) := by
      cases op with
      | pushOp c q =>
        exact delayInv_push c q (hfree c q (List.mem_cons_self _ _)) h
      | cycleOp => exact delayInv_cycle hlen h
      | popOp c => exact delayInv_pop c h
    have hrest : ∀ c q, DramOp.pushOp c q ∈ rest → q ≠ p := fun c q hm =>
      hfree c q (List.mem_cons_of_mem _ hm)
    exact ih hrest (applyDramOp d op) hstep (lengths_eq_applyDramOp op hlen)

/-- Claim C5. For the simple DRAM model: (1) a request `p` pushed on
channel `cid` while the DRAM cycle counter reads `c` is never present in
a response queue (hence never visible via `top`/`is_empty`) until the
cycle counter has passed `c + dram_latency` — i.e. the `cycle()` call
that moved it ran at counter value `>= c + dram_latency`; and (2) on each
DRAM cycle at most one response is enqueued per channel.  Hypotheses:
the per-channel vectors are aligned, `p` is not already in flight, and
the later interactions do not push `p` again. -/
theorem simple_dram_latency_and_serialization
    (d : SimpleDram) (cid p : Nat) (ops : List DramOp)
    (hlen : d.waiting.length = d.response.length)
    (hw : ∀ ch e, e ∈ d.waiting.getD ch [] → e.2 ≠ p)
    (hr : ∀ ch, p ∉ d.response.getD ch [])
    (hfree : ∀ c q, DramOp.pushOp c q ∈ ops → q ≠ p) :
    (∀ ch, p ∈ (runDramOps (d.push cid p) ops).response.getD ch [] →
        d.cycles + d.latency + 1 ≤ (runDramOps (d.push cid p) ops).cycles) ∧
    (∀ e : SimpleDram, ∀ ch : Nat,
        (e.cycleStep.response.getD ch []).length ≤
          (e.response.getD ch []).length + 1) := by
  constructor
  · intro ch hp
    have hinit : DelayInv p (d.cycles + d.latency) (d.push cid p) := by
      constructor
      · intro ch2 e he hep
        simp only [SimpleDram.push] at he
        by_cases hc : cid = ch2
        · subst hc
          rcases getD_set_self_cases d.waiting cid
              (d.waiting.getD cid [] ++
                [(max (d.cycles + d.latency) d.lastFinishCycle, p)])
            with hcase | hcase
          · rw [hcase] at he
            rcases List.mem_append.mp he with hmem | hmem
            · exact absurd hep (hw cid e hmem)
            · rcases List.mem_singleton.mp hmem with rfl
              simp
          · rw [hcase.1] at he
            simp at he
        · rw [getD_set_ne _ _ hc] at he
          exact absurd hep (hw ch2 e he)
      · rintro ⟨ch2, hp2⟩
        exact absurd hp2 (hr ch2)
    have hlen2 : (d.push cid p).waiting.length = (d.push cid p).response.length := by
      simpa [SimpleDram.push] using hlen
    have hrun := delayInv_run p (d.cycles + d.latency) ops hfree
      (d.push cid p) hinit hlen2
    exact hrun.2 ⟨ch, hp⟩
  · intro e ch
    cases hz : (List.zipWith (stepResponse e.cycles) e.waiting e.response)[ch]? with
    | none =>
      have hres : e.cycleStep.response.getD ch [] = [] := by
        simp only [SimpleDram.cycleStep]
        rw [List.getD_eq_getElem?_getD, hz]
        rfl
      rw [hres]
      simp
    | some z =>
      obtain ⟨x, y, hx, hy, hxy⟩ := List.getElem?_zipWith_eq_some.mp hz
      have hres : e.cycleStep.response.getD ch [] = z := by
        simp only [SimpleDram.cycleStep]
        rw [List.getD_eq_getElem?_getD, hz]
        rfl
      have hry : e.response.getD ch [] = y := by
        rw [List.getD_eq_getElem?_getD, hy]
        rfl
      rw [hres, hry, ← hxy]
      cases x with
      | nil => simp [stepResponse]
      | cons hd tl =>
        rcases hd with ⟨f, a⟩
        by_cases hf : f ≤ e.cycles
        · simp [stepResponse, hf]
        · simp [stepResponse, hf]

/-- Witness for `simple_dram_latency_and_serialization`: pushing access
7 into a fresh two-channel DRAM with latency 2 and cycling three times
delivers it with the counter past push-cycle + latency. -/
theorem simple_dram_latency_and_serialization_witness :
    7 ∈ (runDramOps ((SimpleDram.init 2 2).push 0 7)
        [DramOp.cycleOp, DramOp.cycleOp, DramOp.cycleOp]).response.getD 0 [] ∧
      (SimpleDram.init 2 2).cycles + (SimpleDram.init 2 2).latency + 1 ≤
        (runDramOps ((SimpleDram.init 2 2).push 0 7)
          [DramOp.cycleOp, DramOp.cycleOp, DramOp.cycleOp]).cycles := by
  have hmem : 7 ∈ (runDramOps ((SimpleDram.init 2 2).push 0 7)
      [DramOp.cycleOp, DramOp.cycleOp, DramOp.cycleOp]).response.getD 0 [] := by
    decide
  refine ⟨hmem, ?_⟩
  exact (simple_dram_latency_and_serialization (SimpleDram.init 2 2) 0 7
    [DramOp.cycleOp, DramOp.cycleOp, DramOp.cycleOp]
    (by decide)
    (by
      intro ch e2 he
      rw [show (SimpleDram.init 2 2).waiting = List.replicate 2 [] from rfl,
        getD_replicate_nil] at he
      exact absurd he (List.not_mem_nil _))
    (by
      intro ch he
      rw [show (SimpleDram.init 2 2).response = List.replicate 2 [] from rfl,
        getD_replicate_nil] at he
      exact absurd he (List.not_mem_nil _))
    (by simp)).1 0 hmem

/-! ### Simple-DRAM FIFO theorems -/

lemma getD_oob {α : Type} {l : List (List α)} {n : Nat} (hl : l.length ≤ n) :
    l.getD n [] = [] := by
  rw [List.getD_eq_getElem?_getD, List.getElem?_eq_none hl]
  rfl

lemma mem_of_mem_getLast? {α : Type} {l : List α} {x : α}
    (h : x ∈ l.getLast?) : x ∈ l := by
  rcases List.mem_getLast?_eq_getLast h with ⟨hne, rfl⟩
  exact List.getLast_mem hne

lemma fifoInv_push {nCh : Nat} {s : DramHistory} (cid req : Nat)
    (h : FifoInv nCh s) : FifoInv nCh (applyDramOpH s (DramOp.pushOp cid req)) := by
  obtain ⟨hwl, hrl, hpul, hpol, hch⟩ := h
  simp only [applyDramOpH, SimpleDram.push]
  refine ⟨by simpa using hwl, hrl, by simpa using hpul, hpol, ?_⟩
  intro ch
  obtain ⟨hseq, hchain, hbound⟩ := hch ch
  rcases Nat.lt_or_ge ch nCh with hlt | hge
  · by_cases hc : cid = ch
    · subst hc
      rw [getD_set_self_of_lt _ (hwl ▸ hlt), getD_set_self_of_lt _ (hpul ▸ hlt)]
      refine ⟨?_, ?_, ?_⟩
      · simp only [List.map_append, List.map_cons, List.map_nil]
        rw [← List.append_assoc, hseq]
      · simp only [List.map_append, List.map_cons, List.map_nil]
        refine List.chain'_append.mpr ⟨hchain, List.chain'_singleton _, ?_⟩
        intro x hx y hy
        simp only [List.head?_cons, Option.mem_def, Option.some.injEq] at hy
        obtain ⟨e, he, rfl⟩ := List.mem_map.mp (mem_of_mem_getLast? hx)
        subst hy
        exact le_trans (hbound e he) (le_max_right _ _)
      · intro e he
        rcases List.mem_append.mp he with hmem | hmem
        · exact le_trans (hbound e hmem) (le_max_right _ _)
        · rcases List.mem_singleton.mp hmem with rfl
          exact le_refl _
    · rw [getD_set_ne _ _ hc, getD_set_ne _ _ hc]
      exact ⟨hseq, hchain,
        fun e he => le_trans (hbound e he) (le_max_right _ _)⟩
  · have h1 : (s.dram.waiting.set cid
        (s.dram.waiting.getD cid [] ++
          [(max (s.dram.cycles + s.dram.latency) s.dram.lastFinishCycle, req)])
          ).getD ch [] = [] := by
      apply getD_oob
      rw [List.length_set, hwl]
      exact hge
    have h2 : (s.pushed.set cid (s.pushed.getD cid [] ++ [req])).getD ch [] = [] := by
      apply getD_oob
      rw [List.length_set, hpul]
      exact hge
    have h3 : s.dram.response.getD ch [] = [] := getD_oob (hrl ▸ hge)
    have h4 : s.popped.getD ch [] = [] := getD_oob (hpol ▸ hge)
    rw [h1, h2, h3, h4]
    simp

lemma fifoInv_cycle {nCh : Nat} {s : DramHistory}
    (h : FifoInv nCh s) : FifoInv nCh (applyDramOpH s DramOp.cycleOp) := by
  obtain ⟨hwl, hrl, hpul, hpol, hch⟩ := h
  have hlen : s.dram.waiting.length = s.dram.response.length := hwl.trans hrl.symm
  simp only [applyDramOpH, SimpleDram.cycleStep]
  refine ⟨by simpa using hwl, ?_, hpul, hpol, ?_⟩
  · rw [List.length_zipWith, hwl, hrl]
    exact Nat.min_self nCh
  · intro ch
    obtain ⟨hseq, hchain, hbound⟩ := hch ch
    rw [getD_map_nilfix rfl, getD_zipWith_nilfix rfl hlen]
    rcases hW : s.dram.waiting.getD ch [] with _ | ⟨⟨f, a⟩, rest⟩
    · rw [hW] at hseq hchain hbound
      refine ⟨?_, ?_, ?_⟩
      · simpa [stepWaiting, stepResponse] using hseq
      · simp [stepWaiting]
      · simp [stepWaiting]
    · rw [hW] at hseq hchain hbound
      by_cases hf : f ≤ s.dram.cycles
      · simp only [stepWaiting, stepResponse, if_pos hf]
        refine ⟨?_, ?_, ?_⟩
        · simp only [List.map_cons] at hseq
          rw [← hseq]
          simp [List.append_assoc]
        · simp only [List.map_cons] at hchain
          exact hchain.tail
        · exact fun e he => hbound e (List.mem_cons_of_mem _ he)
      · simp only [stepWaiting, stepResponse, if_neg hf]
        exact ⟨hseq, hchain, hbound⟩

lemma fifoInv_pop {nCh : Nat} {s : DramHistory} (cid : Nat)
    (h : FifoInv nCh s) : FifoInv nCh (applyDramOpH s (DramOp.popOp cid)) := by
  obtain ⟨hwl, hrl, hpul, hpol, hch⟩ := h
  simp only [applyDramOpH, SimpleDram.popCh]
  rcases hR : s.dram.response.getD cid [] with _ | ⟨a, rest⟩
  · simp only [List.head?_nil, List.drop_nil]
    refine ⟨hwl, by simpa using hrl, hpul, hpol, ?_⟩
    intro ch
    obtain ⟨hseq, hchain, hbound⟩ := hch ch
    by_cases hc : cid = ch
    · subst hc
      rcases getD_set_self_cases s.dram.response cid [] with hcase | hcase
      · rw [hcase]
        rw [hR] at hseq
        exact ⟨hseq, hchain, hbound⟩
      · rw [hcase.1]
        rw [hR] at hseq
        exact ⟨hseq, hchain, hbound⟩
    · rw [getD_set_ne _ _ hc]
      exact ⟨hseq, hchain, hbound⟩
  · simp only [List.head?_cons, List.drop_succ_cons, List.drop_zero]
    refine ⟨hwl, by simpa using hrl, hpul, by simpa using hpol, ?_⟩
    intro ch
    obtain ⟨hseq, hchain, hbound⟩ := hch ch
    rcases Nat.lt_or_ge ch nCh with hlt | hge
    · by_cases hc : cid = ch
      · subst hc
        rw [getD_set_self_of_lt _ (hpol ▸ hlt), getD_set_self_of_lt _ (hrl ▸ hlt)]
        refine ⟨?_, hchain, hbound⟩
        rw [hR] at hseq
        rw [← hseq]
        simp [List.append_assoc]
      · rw [getD_set_ne _ _ hc, getD_set_ne _ _ hc]
        exact ⟨hseq, hchain, hbound⟩
    · have h1 : (s.dram.response.set cid rest).getD ch [] = [] := by
        apply getD_oob
        rw [List.length_set, hrl]
        exact hge
      have h2 : (s.popped.set cid (s.popped.getD cid [] ++ [a])).getD ch [] = [] := by
        apply getD_oob
        rw [List.length_set, hpol]
        exact hge
      have h3 : s.dram.waiting.getD ch [] = [] := getD_oob (hwl ▸ hge)
      have h4 : s.pushed.getD ch [] = [] := getD_oob (hpul ▸ hge)
      rw [h1, h2, h3, h4]
      simp

lemma fifoInv_init (lat nCh : Nat) : FifoInv nCh (DramHistory.init lat nCh) := by
  refine ⟨by simp [DramHistory.init, SimpleDram.init],
    by simp [DramHistory.init, SimpleDram.init],
    by simp [DramHistory.init],
    by simp [DramHistory.init], ?_⟩
  intro ch
  simp [DramHistory.init, SimpleDram.init, getD_replicate_nil]

lemma fifoInv_run (nCh : Nat) (ops : List DramOp) :
    ∀ s : DramHistory, FifoInv nCh s → FifoInv nCh (runDramOpsH s ops) := by
  induction ops with
  | nil => exact fun s h => h
  | cons op rest ih =>
    intro s h
    have hstep : FifoInv nCh (applyDramOpH s op) := by
      cases op with
      | pushOp c q => exact fifoInv_push c q h
      | cycleOp => exact fifoInv_cycle h
      | popOp c => exact fifoInv_pop c h
    exact ih _ hstep

/-- Claim C10. For the simple DRAM model, each channel is FIFO: after any
sequence of interactions from a fresh DRAM, per channel the popped
(delivered) log, then the response queue, then the pending waiting
accesses concatenate to exactly the push log in push order — so
responses are delivered in exactly the order their requests were pushed;
moreover the scheduled finish cycles in each channel's waiting queue are
non-decreasing (every entry is bounded by the single global
`_last_finish_cycle`, which each push takes a maximum against). -/
theorem simple_dram_per_channel_fifo (lat nCh : Nat) (ops : List DramOp)
    (ch : Nat) :
    ((runDramOpsH (DramHistory.init lat nCh) ops).popped.getD ch [] ++
        (runDramOpsH (DramHistory.init lat nCh) ops).dram.response.getD ch [] ++
        ((runDramOpsH (DramHistory.init lat nCh) ops).dram.waiting.getD ch []).map
          Prod.snd =
      (runDramOpsH (DramHistory.init lat nCh) ops).pushed.getD ch []) ∧
    List.Chain' (· ≤ ·)
      (((runDramOpsH (DramHistory.init lat nCh) ops).dram.waiting.getD ch []).map
        Prod.fst) ∧
    (∀ e ∈ (runDramOpsH (DramHistory.init lat nCh) ops).dram.waiting.getD ch [],
      e.1 ≤ (runDramOpsH (DramHistory.init lat nCh) ops).dram.lastFinishCycle) :=
  (fifoInv_run nCh ops _ (fifoInv_init lat nCh)).2.2.2.2 ch

/-! ### Request-time conversion theorems -/

/-- Claim C6. The code contradicts its own documentation: the `Model`
constructor multiplies the `request_time` seconds by
`1000 * 1000 * 1000` (= 10^9, nanoseconds), although the adjacent
comment says "Pico seconds" and the simulator's domain times are in
picoseconds (periods are `1000000 / freq_MHz` ps, and `_core_time` is
printed as `_core_time / 1000000` µs).  At `request_time = 1.0` s the
stored value is `10^9`, not the documented `10^12`. -/
theorem request_time_code_vs_documented :
    requestTimeOfConfig (some 1) = 1000000000 ∧
    requestTimeDocumented 1 = 1000000000000 ∧
    requestTimeOfConfig (some 1) ≠ requestTimeDocumented 1 ∧
    requestTimeOfConfig none = 0 := by
  refine ⟨?_, ?_, ?_, rfl⟩ <;>
      norm_num [requestTimeOfConfig, requestTimeDocumented] <;>
    decide

/-! ### Input-shape canonicalization theorems -/

/-- Claim C7, counterexample. The claim "every 4-D model input whose
dimensions 2 and 3 are equal is converted" is false: the source guards
the conversion with `input.size() == 1`, so in a model with two inputs a
4-D input with equal trailing dimensions keeps its parsed order. -/
theorem nchw_claim_counterexample :
    ¬ (∀ (numInputs : Nat) (dims : List Nat), dims.length = 4 →
        dims.getD 2 0 = dims.getD 3 0 →
        convertInputDims numInputs dims = dims.eraseIdx 1 ++ [dims.getD 1 0]) := by
  intro hclaim
  exact absurd (hclaim 2 [1, 3, 4, 4] rfl rfl) (by decide)

/-- Claim C7, amended. The NCHW-to-NHWC conversion applies exactly to
models with a single input: for a single-input model a 4-D input
`[n, c, h, w]` with `h = w` becomes `[n, h, w, c]` (and stays put when
`h ≠ w`); with any other number of inputs, or a non-4-D shape, the
parsed order is kept.  The conversion is the single assignment at load
time, so it is applied exactly once per input. -/
theorem nchw_to_nhwc_conversion (k n c h w : Nat) (dims : List Nat) :
    (convertInputDims 1 [n, c, h, w] =
      if h = w then [n, h, w, c] else [n, c, h, w]) ∧
    (k ≠ 1 → convertInputDims k [n, c, h, w] = [n, c, h, w]) ∧
    (dims.length ≠ 4 → convertInputDims k dims = dims) := by
  refine ⟨?_, ?_, ?_⟩
  · by_cases hhw : h = w
    · subst hhw
      simp [convertInputDims, List.eraseIdx]
    · simp [convertInputDims, List.getD, hhw]
  · intro hk
    simp [convertInputDims, hk]
  · intro hlen
    simp [convertInputDims, hlen]

/-- Witness for `nchw_to_nhwc_conversion` on concrete shapes. -/
theorem nchw_to_nhwc_conversion_witness :
    convertInputDims 2 [1, 3, 4, 4] = [1, 3, 4, 4] ∧
    convertInputDims 1 [5, 6, 7] = [5, 6, 7] ∧
    convertInputDims 1 [1, 3, 4, 4] = [1, 4, 4, 3] :=
  ⟨(nchw_to_nhwc_conversion 2 1 3 4 4 []).2.1 (by decide),
   (nchw_to_nhwc_conversion 1 0 0 0 0 [5, 6, 7]).2.2 (by decide),
   by
    have h := (nchw_to_nhwc_conversion 1 1 3 4 4 []).1
    simpa using h⟩

/-! ### Ready-queue theorems -/

lemma check_exist_iff (readyIds : List Nat) (opId : Nat) :
    check_exist_in_exeutable readyIds opId = true ↔ opId ∈ readyIds := by
  induction readyIds with
  | nil => simp [check_exist_in_exeutable]
  | cons x rest ih =>
    by_cases hx : opId = x
    · simp [check_exist_in_exeutable, hx]
    · simp [check_exist_in_exeutable, hx, ih]

lemma setLayerFinishReady_nodup (exec : Nat → Bool) (children : List Nat) :
    ∀ readyIds : List Nat, readyIds.Nodup →
      (setLayerFinishReady exec readyIds children).Nodup := by
  induction children with
  | nil => exact fun r h => h
  | cons c rest ih =>
    intro r hr
    by_cases hex : exec c = true ∧ check_exist_in_exeutable r c = false
    · have hc : c ∉ r := by
        intro hmem
        rw [(check_exist_iff r c).mpr hmem] at hex
        cases hex.2
      have hnodup : (r ++ [c]).Nodup := by
        rw [List.nodup_append]
        refine ⟨hr, List.nodup_singleton c, ?_⟩
        intro a ha hb
        rcases List.mem_singleton.mp hb with rfl
        exact hc ha
      have hrec := ih (r ++ [c]) hnodup
      simpa [setLayerFinishReady, hex.1, hex.2] using hrec
    · have hrec := ih r hr
      simpa [setLayerFinishReady, hex] using hrec

lemma seedReady_nodup (opMap : List (Nat × Bool))
    (hids : (opMap.map Prod.fst).Nodup) : (seedReady opMap).Nodup := by
  have hsub : List.Sublist ((opMap.filter (fun e => e.2)).map Prod.fst)
      (opMap.map Prod.fst) :=
    (List.filter_sublist _).map Prod.fst
  exact List.Nodup.sublist hsub hids

/-- Claim C9. The ready-queue of executable operations never contains two
entries with the same operation id: seeding from the operation map (one
entry per id) yields no duplicates, each `set_layer_finish` appends a
child only if it is executable and the linear scan
`check_exist_in_exeutable` finds no entry with its id, and
`get_executable_tile` only removes the front — so after any interaction
sequence the queue has pairwise-distinct ids. -/
theorem ready_queue_nodup (opMap : List (Nat × Bool))
    (hids : (opMap.map Prod.fst).Nodup) (ops : List ReadyOp) :
    (runReadyOps (seedReady opMap) ops).Nodup := by
  have hinit := seedReady_nodup opMap hids
  suffices h : ∀ (ops2 : List ReadyOp) (r : List Nat), r.Nodup →
      (runReadyOps r ops2).Nodup from h ops _ hinit
  intro ops2
  induction ops2 with
  | nil => exact fun r h => h
  | cons op rest ih =>
    intro r hr
    have hstep : (applyReadyOp r op).Nodup := by
      cases op with
      | finishOp exec children =>
        exact setLayerFinishReady_nodup exec children r hr
      | getTileOp => exact List.Nodup.sublist (List.drop_sublist 1 r) hr
    exact ih (applyReadyOp r op) hstep

/-- Witness for `ready_queue_nodup` on a concrete operation map and
interaction sequence (the duplicate child 2 is appended only once). -/
theorem ready_queue_nodup_witness :
    (runReadyOps (seedReady [(1, true), (2, false), (3, true)])
      [ReadyOp.finishOp (fun _ => true) [2, 2, 3],
       ReadyOp.getTileOp]).Nodup :=
  ready_queue_nodup [(1, true), (2, false), (3, true)] (by decide)
    [ReadyOp.finishOp (fun _ => true) [2, 2, 3], ReadyOp.getTileOp]

/-! ### Graph-truncation theorems -/

lemma buildOps_cons_unknown (nrAtten k : Int) (node : NodeProto)
    (rest : List NodeProto) (h : node.known = false) :
    buildOps nrAtten k (node :: rest) = buildOps nrAtten k rest := by
  simp [buildOps, h]

lemma buildOps_cons_known_other (nrAtten k : Int) (node : NodeProto)
    (rest : List NodeProto) (h : node.known = true)
    (h2 : node.opType ≠ "SkipLayerNormalization") :
    buildOps nrAtten k (node :: rest) =
      (node, false) :: buildOps nrAtten k rest := by
  simp [buildOps, h, h2]

lemma buildOps_cons_sln_neg_one (k : Int) (node : NodeProto)
    (rest : List NodeProto) (h : node.known = true)
    (h2 : node.opType = "SkipLayerNormalization") :
    buildOps (-1) k (node :: rest) = (node, false) :: buildOps (-1) k rest := by
  simp [buildOps, h, h2]

lemma buildOps_cons_sln_break (nrAtten k : Int) (node : NodeProto)
    (rest : List NodeProto) (h : node.known = true)
    (h2 : node.opType = "SkipLayerNormalization") (hne : nrAtten ≠ -1)
    (hge : k + 1 ≥ nrAtten * 2) :
    buildOps nrAtten k (node :: rest) = [(node, true)] := by
  simp [buildOps, h, h2, hne, hge]

lemma buildOps_cons_sln_cont (nrAtten k : Int) (node : NodeProto)
    (rest : List NodeProto) (h : node.known = true)
    (h2 : node.opType = "SkipLayerNormalization") (hne : nrAtten ≠ -1)
    (hlt : ¬ k + 1 ≥ nrAtten * 2) :
    buildOps nrAtten k (node :: rest) =
      (node, false) :: buildOps nrAtten (k + 1) rest := by
  simp [buildOps, h, h2, hne, hlt]

lemma buildOps_neg_one (nodes : List NodeProto) : ∀ k : Int,
    buildOps (-1) k nodes =
      (nodes.filter (fun x => x.known)).map (fun x => (x, false)) := by
  induction nodes with
  | nil => intro k; rfl
  | cons node rest ih =>
    intro k
    by_cases hk : node.known = true
    · by_cases hs : node.opType = "SkipLayerNormalization"
      · rw [buildOps_cons_sln_neg_one k node rest hk hs, ih k,
          List.filter_cons_of_pos hk, List.map_cons]
      · rw [buildOps_cons_known_other (-1) k node rest hk hs, ih k,
          List.filter_cons_of_pos hk, List.map_cons]
    · rw [Bool.not_eq_true] at hk
      rw [buildOps_cons_unknown (-1) k node rest hk, ih k,
        List.filter_cons_of_neg (by simp [hk])]

lemma buildOps_sln_count (n : Nat) (nodes : List NodeProto) :
    ∀ k : Nat, slnCount (buildOps (n : Int) (k : Int) nodes) =
      min (max 1 (2 * n - k)) (slnNodes nodes) := by
  have hne : ∀ k : Nat, ((n : Nat) : Int) ≠ -1 := fun _ => by omega
  induction nodes with
  | nil =>
    intro k
    simp [buildOps, slnCount, slnNodes]
  | cons node rest ih =>
    intro k
    by_cases hk : node.known = true
    · by_cases hs : node.opType = "SkipLayerNormalization"
      · have hsn : slnNodes (node :: rest) = slnNodes rest + 1 := by
          simp [slnNodes, List.countP_cons, hs, hk]
        by_cases hbr : n * 2 ≤ k + 1
        · have hgeInt : (k : Int) + 1 ≥ (n : Int) * 2 := by
            omega
          rw [buildOps_cons_sln_break _ _ node rest hk hs (hne k) hgeInt]
          have hct : slnCount [(node, true)] = 1 := by
            simp [slnCount, List.countP_cons, hs]
          rw [hct, hsn]
          omega
        · have hltInt : ¬ (k : Int) + 1 ≥ (n : Int) * 2 := by
            omega
          rw [buildOps_cons_sln_cont _ _ node rest hk hs (hne k) hltInt]
          have hcast : (k : Int) + 1 = ((k + 1 : Nat) : Int) := by push_cast; ring
          rw [hcast]
          have hct : slnCount ((node, false) ::
              buildOps (n : Int) ((k + 1 : Nat) : Int) rest) =
              slnCount (buildOps (n : Int) ((k + 1 : Nat) : Int) rest) + 1 := by
            simp [slnCount, List.countP_cons, hs]
          rw [hct, ih (k + 1), hsn]
          omega
      · rw [buildOps_cons_known_other _ _ node rest hk hs]
        have hct : slnCount ((node, false) ::
            buildOps (n : Int) (k : Int) rest) =
            slnCount (buildOps (n : Int) (k : Int) rest) := by
          simp [slnCount, List.countP_cons, hs]
        have hsn : slnNodes (node :: rest) = slnNodes rest := by
          simp [slnNodes, List.countP_cons, hs]
        rw [hct, ih k, hsn]
    · rw [Bool.not_eq_true] at hk
      rw [buildOps_cons_unknown _ _ node rest hk]
      have hsn : slnNodes (node :: rest) = slnNodes rest := by
        simp [slnNodes, List.countP_cons, hk]
      rw [ih k, hsn]

lemma buildOps_cleared_count (n : Nat) (nodes : List NodeProto) :
    ∀ k : Nat, clearedCount (buildOps (n : Int) (k : Int) nodes) =
      if max 1 (2 * n - k) ≤ slnNodes nodes then 1 else 0 := by
  have hne : ∀ k : Nat, ((n : Nat) : Int) ≠ -1 := fun _ => by omega
  induction nodes with
  | nil =>
    intro k
    rw [if_neg (by simp [slnNodes])]
    simp [buildOps, clearedCount]
  | cons node rest ih =>
    intro k
    by_cases hk : node.known = true
    · by_cases hs : node.opType = "SkipLayerNormalization"
      · have hsn : slnNodes (node :: rest) = slnNodes rest + 1 := by
          simp [slnNodes, List.countP_cons, hs, hk]
        by_cases hbr : n * 2 ≤ k + 1
        · have hgeInt : (k : Int) + 1 ≥ (n : Int) * 2 := by
            omega
          rw [buildOps_cons_sln_break _ _ node rest hk hs (hne k) hgeInt,
            hsn, if_pos (by omega)]
          simp [clearedCount, List.countP_cons]
        · have hltInt : ¬ (k : Int) + 1 ≥ (n : Int) * 2 := by
            omega
          rw [buildOps_cons_sln_cont _ _ node rest hk hs (hne k) hltInt]
          have hcast : (k : Int) + 1 = ((k + 1 : Nat) : Int) := by push_cast; ring
          rw [hcast]
          have hct : clearedCount ((node, false) ::
              buildOps (n : Int) ((k + 1 : Nat) : Int) rest) =
              clearedCount (buildOps (n : Int) ((k + 1 : Nat) : Int) rest) := by
            simp [clearedCount, List.countP_cons]
          rw [hct, ih (k + 1), hsn]
          by_cases hcond : max 1 (2 * n - (k + 1)) ≤ slnNodes rest
          · rw [if_pos hcond, if_pos (by omega)]
          · rw [if_neg hcond, if_neg (by omega)]
      · rw [buildOps_cons_known_other _ _ node rest hk hs]
        have hct : clearedCount ((node, false) ::
            buildOps (n : Int) (k : Int) rest) =
            clearedCount (buildOps (n : Int) (k : Int) rest) := by
          simp [clearedCount, List.countP_cons]
        have hsn : slnNodes (node :: rest) = slnNodes rest := by
          simp [slnNodes, List.countP_cons, hs]
        rw [hct, ih k, hsn]
    · rw [Bool.not_eq_true] at hk
      rw [buildOps_cons_unknown _ _ node rest hk]
      have hsn : slnNodes (node :: rest) = slnNodes rest := by
        simp [slnNodes, List.countP_cons, hk]
      rw [ih k, hsn]

lemma clearedOnlyLast_cons (e : NodeProto × Bool) (l : List (NodeProto × Bool))
    (he : e.2 = false) (hl : ClearedOnlyLast l) : ClearedOnlyLast (e :: l) := by
  cases l with
  | nil => trivial
  | cons x xs => exact ⟨he, hl⟩

lemma buildOps_clearedOnlyLast (nrAtten : Int) (nodes : List NodeProto) :
    ∀ k : Int, ClearedOnlyLast (buildOps nrAtten k nodes) := by
  induction nodes with
  | nil => intro k; trivial
  | cons node rest ih =>
    intro k
    by_cases hk : node.known = true
    · by_cases hs : node.opType = "SkipLayerNormalization"
      · by_cases hne : nrAtten = -1
        · subst hne
          rw [buildOps_cons_sln_neg_one k node rest hk hs]
          exact clearedOnlyLast_cons _ _ rfl (ih k)
        · by_cases hge : k + 1 ≥ nrAtten * 2
          · rw [buildOps_cons_sln_break nrAtten k node rest hk hs hne hge]
            trivial
          · rw [buildOps_cons_sln_cont nrAtten k node rest hk hs hne hge]
            exact clearedOnlyLast_cons _ _ rfl (ih (k + 1))
      · rw [buildOps_cons_known_other nrAtten k node rest hk hs]
        exact clearedOnlyLast_cons _ _ rfl (ih k)
    · rw [Bool.not_eq_true] at hk
      rw [buildOps_cons_unknown nrAtten k node rest hk]
      exact ih k

/-- Claim C8, counterexample. The claim fails at `nr_atten = 0`: with a
graph holding one SkipLayerNormalization node, the claim says the graph
is truncated after `2 * 0 = 0` such nodes are created, but the source
pre-increments `nr_skip` only after creating the node, so the first
SkipLayerNormalization node is still created (with its outputs
cleared). -/
theorem nr_atten_claim_counterexample :
    ¬ (∀ (n : Nat) (nodes : List NodeProto),
        2 * n < slnNodes nodes →
        slnCount (buildOps (n : Int) 0 nodes) = 2 * n) := by
  intro hclaim
  have h := hclaim 0 [⟨"SkipLayerNormalization", true⟩] (by decide)
  rw [show ((0 : Nat) : Int) = 0 from rfl] at h
  exact absurd h (by decide)

/-- Claim C8, amended. During model initialization: when `nr_atten` is
`-1` no truncation occurs (every factory-known node is created, none
cleared).  When `nr_atten = n >= 0`, the operator graph is truncated
after `max 1 (2 * n)` SkipLayerNormalization nodes have been created
(for `n >= 1` that is after `2 * n` such nodes, as the claim says; for
`n = 0` the first such node is still created): exactly that many
SkipLayerNormalization operations exist among the created nodes when the
graph supplies enough of them, exactly one node — the last created one —
has its outputs cleared when truncation fires, and no node is created
after it. -/
theorem nr_atten_truncation (n : Nat) (nodes : List NodeProto) :
    (buildOps (-1) 0 nodes =
      (nodes.filter (fun x => x.known)).map (fun x => (x, false))) ∧
    (slnCount (buildOps (n : Int) 0 nodes) =
      min (max 1 (2 * n)) (slnNodes nodes)) ∧
    (clearedCount (buildOps (n : Int) 0 nodes) =
      if max 1 (2 * n) ≤ slnNodes nodes then 1 else 0) ∧
    ClearedOnlyLast (buildOps (n : Int) 0 nodes) := by
  refine ⟨buildOps_neg_one nodes 0, ?_, ?_, buildOps_clearedOnlyLast _ nodes 0⟩
  · have h := buildOps_sln_count n nodes 0
    rw [show ((0 : Nat) : Int) = 0 from rfl] at h
    simpa using h
  · have h := buildOps_cleared_count n nodes 0
    rw [show ((0 : Nat) : Int) = 0 from rfl] at h
    simpa using h

end ONNXim
